import Mathlib

/-!
Shallow embedding of the depth-processing core of the wigglegram-3d
repository (src/depth-processor.js), together with theorems checking the
natural-language specification against it.

Modelling conventions:
* JavaScript numbers are embedded as exact rationals, except where the
  source computes a square root or an exponential, in which case real
  numbers are used.
* Flat typed arrays (row-major, index y * width + x) are embedded as
  functions from the flat index; each stage carries the width/height it
  uses for its own index arithmetic, exactly as the source does.
* A Uint8Array store wraps its integer argument modulo 256 (the ToUint8
  conversion); this is made explicit with Int.emod 256.
* The floating-point Infinity sentinel that initialises the running
  minimum of the block matcher is embedded as an Option that starts at
  none.
-/

namespace WiggleDepth

/-- RGBA image data: width, height and four per-pixel channel buffers
(flat pixel index, as produced by getImageData). -/
structure ImageData where
  width : ℕ
  height : ℕ
  r : ℕ → ℚ
  g : ℕ → ℚ
  b : ℕ → ℚ
  a : ℕ → ℚ

/-- Options object taken by computeDepthMap (caller-resolved, no defaults
applied here). -/
structure DepthOptions where
  blockSize : ℕ
  maxDisparity : ℕ
  smoothing : Bool
  normalize : Bool

/-- Error taxonomy named by the specification.  The source never raises
either error; the type records what an InvalidConfig abort would be. -/
inductive DepthError where
  | invalidConfig : DepthError
  | invalidInput : DepthError
deriving DecidableEq

/-- Grayscale conversion: gray[i] = round(0.299 R + 0.587 G + 0.114 B),
stored into a Uint8Array (hence the modulo-256 wrap of ToUint8). -/
def toGrayscale (img : ImageData) : ℕ → ℤ :=
  fun i =>
    (round ((0.299 : ℚ) * img.r i + (0.587 : ℚ) * img.g i + (0.114 : ℚ) * img.b i)).emod 256

/-- Clamp an integer coordinate into [lo, hi] (Math.max lo (Math.min hi v)). -/
def clamp (lo hi v : ℤ) : ℤ := max lo (min hi v)

/-- Flat index of the left-image read in the block matcher inner loop:
(y + wy) * width + (x + wx). -/
def blockLeftIdx (width : ℕ) (x y wx wy : ℤ) : ℤ := (y + wy) * width + (x + wx)

/-- Flat index of the right-image read in the block matcher inner loop:
(y + wy) * width + (x + wx - d). -/
def blockRightIdx (width : ℕ) (x y wx wy d : ℤ) : ℤ := (y + wy) * width + (x + wx - d)

/-- Sum of absolute differences between the blockSize-square window at
(x, y) in the left field and the window at (x - d, y) in the right field,
with halfBlock the window radius.  Mirrors the two inner loops of
blockMatch. -/
def sad (left right : ℕ → ℤ) (width halfBlock x y d : ℕ) : ℤ :=
  ∑ wy ∈ Finset.Icc (-(halfBlock : ℤ)) (halfBlock : ℤ),
    ∑ wx ∈ Finset.Icc (-(halfBlock : ℤ)) (halfBlock : ℤ),
      |left (blockLeftIdx width x y wx wy).toNat -
        right (blockRightIdx width x y wx wy d).toNat|

/-- One iteration of the disparity search: keep the candidate whenever its
SAD is strictly below the running minimum (none plays Infinity). -/
def bestStep (sadf : ℕ → ℤ) (acc : ℕ × Option ℤ) (d : ℕ) : ℕ × Option ℤ :=
  match acc.2 with
  | none => (d, some (sadf d))
  | some m => if sadf d < m then (d, some (sadf d)) else acc

/-- The disparity search loop for d = 0 .. maxD, starting from
bestDisparity = 0 and minSAD = Infinity. -/
def bestMatch (sadf : ℕ → ℤ) (maxD : ℕ) : ℕ :=
  ((List.range (maxD + 1)).foldl (bestStep sadf) (0, none)).1

/-- Block-matching stereo disparity.  Interior pixels (at least halfBlock
away from every border) get the best SAD disparity searched over
0 .. min maxDisparity (x - halfBlock); all other entries keep the 0 the
Float32Array was initialised with. -/
def blockMatch (left right : ℕ → ℤ) (width height blockSize maxDisparity : ℕ) :
    ℕ → ℕ :=
  fun i =>
    let halfBlock := blockSize / 2
    let y := i / width
    let x := i % width
    if halfBlock ≤ y ∧ y < height - halfBlock ∧ halfBlock ≤ x ∧ x < width - halfBlock then
      bestMatch (sad left right width halfBlock x y) (min maxDisparity (x - halfBlock))
    else 0

/-- Median filter: gather the kernelSize-square neighbourhood with
edge-replicate clamping, sort ascending (the numeric comparator), and take
the entry at index floor(count / 2). -/
def medianFilter {α : Type} [LinearOrder α] [Zero α] (data : ℕ → α)
    (width height kernelSize : ℕ) : ℕ → α :=
  fun i =>
    let half := kernelSize / 2
    let y := i / width
    let x := i % width
    let kernel := (List.range kernelSize).flatMap (fun (ka : ℕ) =>
      (List.range kernelSize).map (fun (kb : ℕ) =>
        let ny := clamp 0 ((height : ℤ) - 1) ((y : ℤ) + (ka : ℤ) - (half : ℤ))
        let nx := clamp 0 ((width : ℤ) - 1) ((x : ℤ) + (kb : ℤ) - (half : ℤ))
        data (ny * width + nx).toNat))
    (kernel.mergeSort (fun u v => decide (u ≤ v))).getD (kernel.length / 2) 0

/-- Unnormalised Gaussian weights exp(-i^2 / (2 sigma^2)) for
i = -half .. half. -/
noncomputable def gaussianRaw (sigma : ℝ) (half : ℕ) : List ℝ :=
  (List.range (2 * half + 1)).map (fun i =>
    Real.exp (-(((i : ℝ) - half) ^ 2) / (2 * sigma ^ 2)))

/-- Horizontal pass of the separable blur: clamp the column, weight by
kernel[k + half]. -/
noncomputable def gaussianPassH (data : ℕ → ℝ) (width : ℕ) (kernel : List ℝ)
    (half : ℕ) : ℕ → ℝ :=
  fun i =>
    let y := i / width
    let x := i % width
    ∑ k ∈ Finset.Icc (-(half : ℤ)) (half : ℤ),
      data ((y : ℤ) * width + clamp 0 ((width : ℤ) - 1) ((x : ℤ) + k)).toNat *
        kernel.getD (k + half).toNat 0

/-- Vertical pass of the separable blur: clamp the row, weight by
kernel[k + half]. -/
noncomputable def gaussianPassV (data : ℕ → ℝ) (width height : ℕ)
    (kernel : List ℝ) (half : ℕ) : ℕ → ℝ :=
  fun i =>
    let y := i / width
    let x := i % width
    ∑ k ∈ Finset.Icc (-(half : ℤ)) (half : ℤ),
      data ((clamp 0 ((height : ℤ) - 1) ((y : ℤ) + k)) * width + x).toNat *
        kernel.getD (k + half).toNat 0

/-- Separable Gaussian blur: kernelSize = ceil(sigma * 3) * 2 + 1, kernel
normalised to sum 1, horizontal pass then vertical pass. -/
noncomputable def gaussianBlur (data : ℕ → ℝ) (width height : ℕ) (sigma : ℝ) :
    ℕ → ℝ :=
  let half := (⌈sigma * 3⌉).toNat
  let raw := gaussianRaw sigma half
  let kernel := raw.map (fun v => v / raw.sum)
  gaussianPassV (gaussianPassH data width kernel half) width height kernel half

/-- One step of the running-minimum scan (if v < min then min = v, with
none as the Infinity start). -/
def minStep {α : Type} [LinearOrder α] (m : Option α) (v : α) : Option α :=
  match m with
  | none => some v
  | some m' => some (if v < m' then v else m')

/-- One step of the running-maximum scan (if v > max then max = v, with
none as the -Infinity start). -/
def maxStep {α : Type} [LinearOrder α] (m : Option α) (v : α) : Option α :=
  match m with
  | none => some v
  | some m' => some (if v > m' then v else m')

/-- Running minimum of an array. -/
def arrayMin {α : Type} [LinearOrder α] (data : List α) : Option α :=
  data.foldl minStep none

/-- Running maximum of an array. -/
def arrayMax {α : Type} [LinearOrder α] (data : List α) : Option α :=
  data.foldl maxStep none

/-- Min-max normalisation to a Uint8Array: range = (max - min) || 1, each
entry round((v - min) / range * 255) wrapped by the Uint8 store.  An empty
array has no min/max (the sentinels survive) and maps to the empty
output. -/
def normalizeArray {α : Type} [LinearOrderedField α] [FloorRing α]
    (data : List α) : List ℤ :=
  match arrayMin data, arrayMax data with
  | some mn, some mx =>
    let range := if mx - mn = 0 then (1 : α) else mx - mn
    data.map (fun v => (round ((v - mn) / range * 255)).emod 256)
  | _, _ => []

/-- Sobel x-kernel, row-major. -/
def sobelX : List ℤ := [-1, 0, 1, -2, 0, 2, -1, 0, 1]

/-- Sobel y-kernel, row-major. -/
def sobelY : List ℤ := [-1, -2, -1, 0, 0, 0, 1, 2, 1]

/-- One Sobel gradient component at (x, y): the 3-by-3 neighbourhood dotted
with the row-major kernel (k = (ky + 1) * 3 + (kx + 1)). -/
def sobelG (gray : ℕ → ℤ) (width : ℕ) (x y : ℕ) (kernel : List ℤ) : ℤ :=
  ∑ ky ∈ Finset.Icc (-1 : ℤ) 1,
    ∑ kx ∈ Finset.Icc (-1 : ℤ) 1,
      gray (((y : ℤ) + ky) * width + ((x : ℤ) + kx)).toNat *
        kernel.getD ((ky + 1) * 3 + (kx + 1)).toNat 0

/-- Sobel edge magnitude sqrt(gx^2 + gy^2) / 255 on the interior; border
rows and columns keep the 0 the Float32Array was initialised with. -/
noncomputable def sobelEdges (gray : ℕ → ℤ) (width height : ℕ) : ℕ → ℝ :=
  fun i =>
    let y := i / width
    let x := i % width
    if 1 ≤ y ∧ y < height - 1 ∧ 1 ≤ x ∧ x < width - 1 then
      Real.sqrt ((sobelG gray width x y sobelX : ℝ) ^ 2 +
        (sobelG gray width x y sobelY : ℝ) ^ 2) / 255
    else 0

/-- Distance from pixel (x, y) to the image centre (width/2, height/2). -/
noncomputable def radialDist (width height : ℕ) (x y : ℕ) : ℝ :=
  Real.sqrt (((x : ℝ) - width / 2) ^ 2 + ((y : ℝ) - height / 2) ^ 2)

/-- Radial bias field: 1 - dist/maxDist with maxDist the centre-to-corner
distance sqrt(centerX^2 + centerY^2). -/
noncomputable def radialField (width height : ℕ) : ℕ → ℝ :=
  fun i =>
    let y := i / width
    let x := i % width
    1 - radialDist width height x y /
      Real.sqrt (((width : ℝ) / 2) ^ 2 + ((height : ℝ) / 2) ^ 2)

/-- Materialise a flat field of the given length as a list (the order the
pipeline iterates arrays in). -/
def fieldToList {α : Type} (f : ℕ → α) (n : ℕ) : List α :=
  (List.range n).map f

/-- The stereo depth pipeline: grayscale both images, block-match, then
optionally median-filter (kernel 3) and Gaussian-blur (sigma 2), then
optionally min-max normalise.  The source has no validation and no throw
statement, so the promise always resolves: the result is always ok. -/
noncomputable def computeDepthMap (leftImg rightImg : ImageData)
    (opts : DepthOptions) : Except DepthError (List ℝ) :=
  let width := leftImg.width
  let height := leftImg.height
  let leftGray := toGrayscale leftImg
  let rightGray := toGrayscale rightImg
  let disparity : ℕ → ℝ := fun i =>
    ((blockMatch leftGray rightGray width height opts.blockSize opts.maxDisparity i : ℕ) : ℝ)
  let processed : ℕ → ℝ :=
    if opts.smoothing then
      gaussianBlur (medianFilter disparity width height 3) width height 2
    else disparity
  if opts.normalize then
    .ok ((normalizeArray (fieldToList processed (width * height))).map (fun (z : ℤ) => (z : ℝ)))
  else
    .ok (fieldToList processed (width * height))

/-- A 16-by-16 image whose every pixel is the opaque gray (100, 100, 100). -/
def gray16 : ImageData :=
  ⟨16, 16, fun _ => 100, fun _ => 100, fun _ => 100, fun _ => 255⟩

/-- A 3-by-3 grayscale field that is 0 except for value 255 at (x, y) =
(2, 1) (flat index 5). -/
def sobelSpike : ℕ → ℤ := fun j => if j = 5 then 255 else 0

/-! ### Flat-index arithmetic -/

lemma flatIdx_mod (w x y : ℕ) (hx : x < w) : (y * w + x) % w = x := by
  rw [Nat.add_comm, Nat.add_mul_mod_self_right, Nat.mod_eq_of_lt hx]

lemma flatIdx_div (w x y : ℕ) (hx : x < w) : (y * w + x) / w = y := by
  rw [Nat.add_comm, Nat.add_mul_div_right _ _ (by omega : 0 < w),
    Nat.div_eq_of_lt hx, Nat.zero_add]

/-! ### The disparity search loop -/

lemma bestFold_spec (f : ℕ → ℤ) (n : ℕ) :
    ∃ b, (List.range (n + 1)).foldl (bestStep f) (0, none) = (b, some (f b)) ∧
      b ≤ n ∧ (∀ d, d ≤ n → f b ≤ f d) ∧ (∀ d, d < b → f b < f d) := by
  induction n with
  | zero =>
    refine ⟨0, rfl, le_refl 0, ?_, ?_⟩
    · intro d hd
      interval_cases d
      exact le_refl _
    · intro d hd
      omega
  | succ n ih =>
    obtain ⟨b, hfold, hble, hmin, hstrict⟩ := ih
    rw [List.range_succ, List.foldl_append, hfold]
    by_cases h : f (n + 1) < f b
    · refine ⟨n + 1, by simp [bestStep, h], le_refl _, ?_, ?_⟩
      · intro d hd
        rcases eq_or_lt_of_le hd with rfl | hd'
        · exact le_refl _
        · exact le_of_lt (lt_of_lt_of_le h (hmin d (by omega)))
      · intro d hd
        exact lt_of_lt_of_le h (hmin d (by omega))
    · refine ⟨b, by simp [bestStep, h], le_trans hble (Nat.le_succ n), ?_, hstrict⟩
      intro d hd
      rcases eq_or_lt_of_le hd with rfl | hd'
      · exact le_of_not_lt h
      · exact hmin d (by omega)

lemma bestMatch_spec (f : ℕ → ℤ) (n : ℕ) :
    bestMatch f n ≤ n ∧ (∀ d, d ≤ n → f (bestMatch f n) ≤ f d) ∧
      ∀ d, d < bestMatch f n → f (bestMatch f n) < f d := by
  obtain ⟨b, hfold, h1, h2, h3⟩ := bestFold_spec f n
  unfold bestMatch
  rw [hfold]
  exact ⟨h1, h2, h3⟩

lemma bestMatch_zero (f : ℕ → ℤ) (n : ℕ) (h0 : f 0 = 0) (hnn : ∀ d, 0 ≤ f d) :
    bestMatch f n = 0 := by
  obtain ⟨-, -, hstrict⟩ := bestMatch_spec f n
  by_contra hne
  have h1 := hstrict 0 (Nat.pos_of_ne_zero hne)
  rw [h0] at h1
  exact absurd h1 (not_lt.mpr (hnn _))

/-! ### SAD basics -/

lemma sad_nonneg (left right : ℕ → ℤ) (w hb x y d : ℕ) :
    0 ≤ sad left right w hb x y d :=
  Finset.sum_nonneg fun _ _ => Finset.sum_nonneg fun _ _ => abs_nonneg _

lemma sad_self (g : ℕ → ℤ) (w hb x y : ℕ) : sad g g w hb x y 0 = 0 := by
  unfold sad
  refine Finset.sum_eq_zero fun wy _ => Finset.sum_eq_zero fun wx _ => ?_
  simp [blockLeftIdx, blockRightIdx]

/-! ### Block matcher case analysis -/

lemma blockMatch_interior (left right : ℕ → ℤ) (w h bs md x y : ℕ)
    (hx1 : bs / 2 ≤ x) (hx2 : x < w - bs / 2)
    (hy1 : bs / 2 ≤ y) (hy2 : y < h - bs / 2) :
    blockMatch left right w h bs md (y * w + x) =
      bestMatch (sad left right w (bs / 2) x y) (min md (x - bs / 2)) := by
  have hxw : x < w := lt_of_lt_of_le hx2 (Nat.sub_le _ _)
  simp only [blockMatch, flatIdx_mod w x y hxw, flatIdx_div w x y hxw]
  rw [if_pos ⟨hy1, hy2, hx1, hx2⟩]

lemma blockMatch_border (left right : ℕ → ℤ) (w h bs md i : ℕ)
    (hb : ¬(bs / 2 ≤ i / w ∧ i / w < h - bs / 2 ∧
      bs / 2 ≤ i % w ∧ i % w < w - bs / 2)) :
    blockMatch left right w h bs md i = 0 := by
  simp only [blockMatch]
  rw [if_neg hb]

lemma blockMatch_self (g : ℕ → ℤ) (w h bs md i : ℕ) :
    blockMatch g g w h bs md i = 0 := by
  simp only [blockMatch]
  split
  · exact bestMatch_zero _ _ (sad_self g w (bs / 2) _ _)
      (fun d => sad_nonneg g g w (bs / 2) _ _ d)
  · rfl

/-- C2: with half = (blockSize - 1) / 2 and odd blockSize, every interior
pixel (half ≤ x < W - half, half ≤ y < H - half) receives the smallest
d in [0, min maxDisparity (x - half)] minimising the SAD between the
windows at (x, y) in the left field and (x - d, y) in the right field
(ties broken first-found under strict less-than), and every pixel within
half of a border receives disparity 0. -/
theorem blockMatch_interior_argmin_and_border_zero
    (left right : ℕ → ℤ) (w h bs md : ℕ) (hodd : Odd bs) :
    (∀ x y, (bs - 1) / 2 ≤ x → x < w - (bs - 1) / 2 →
      (bs - 1) / 2 ≤ y → y < h - (bs - 1) / 2 →
      blockMatch left right w h bs md (y * w + x) ≤ min md (x - (bs - 1) / 2) ∧
      (∀ d, d ≤ min md (x - (bs - 1) / 2) →
        sad left right w ((bs - 1) / 2) x y
            (blockMatch left right w h bs md (y * w + x)) ≤
          sad left right w ((bs - 1) / 2) x y d) ∧
      (∀ d, d < blockMatch left right w h bs md (y * w + x) →
        sad left right w ((bs - 1) / 2) x y
            (blockMatch left right w h bs md (y * w + x)) <
          sad left right w ((bs - 1) / 2) x y d)) ∧
    (∀ x y, x < w → y < h →
      (x < (bs - 1) / 2 ∨ w - (bs - 1) / 2 ≤ x ∨
        y < (bs - 1) / 2 ∨ h - (bs - 1) / 2 ≤ y) →
      blockMatch left right w h bs md (y * w + x) = 0) := by
  have hhalf : (bs - 1) / 2 = bs / 2 := by
    obtain ⟨k, hk⟩ := hodd
    omega
  rw [hhalf]
  constructor
  · intro x y hx1 hx2 hy1 hy2
    rw [blockMatch_interior left right w h bs md x y hx1 hx2 hy1 hy2]
    exact bestMatch_spec (sad left right w (bs / 2) x y) (min md (x - bs / 2))
  · intro x y hxw hyh hout
    refine blockMatch_border left right w h bs md (y * w + x) ?_
    rw [flatIdx_mod w x y hxw, flatIdx_div w x y hxw]
    omega

/-- Witness for C2 at a concrete 3-by-3 pair, blockSize 3, maxDisparity 2. -/
theorem blockMatch_interior_argmin_and_border_zero_witness :
    Odd 3 ∧
    ((∀ x y, (3 - 1) / 2 ≤ x → x < 3 - (3 - 1) / 2 →
      (3 - 1) / 2 ≤ y → y < 3 - (3 - 1) / 2 →
      blockMatch (fun j => (j : ℤ)) (fun j => (j : ℤ) + 1) 3 3 3 2 (y * 3 + x) ≤
        min 2 (x - (3 - 1) / 2) ∧
      (∀ d, d ≤ min 2 (x - (3 - 1) / 2) →
        sad (fun j => (j : ℤ)) (fun j => (j : ℤ) + 1) 3 ((3 - 1) / 2) x y
            (blockMatch (fun j => (j : ℤ)) (fun j => (j : ℤ) + 1) 3 3 3 2 (y * 3 + x)) ≤
          sad (fun j => (j : ℤ)) (fun j => (j : ℤ) + 1) 3 ((3 - 1) / 2) x y d) ∧
      (∀ d, d < blockMatch (fun j => (j : ℤ)) (fun j => (j : ℤ) + 1) 3 3 3 2 (y * 3 + x) →
        sad (fun j => (j : ℤ)) (fun j => (j : ℤ) + 1) 3 ((3 - 1) / 2) x y
            (blockMatch (fun j => (j : ℤ)) (fun j => (j : ℤ) + 1) 3 3 3 2 (y * 3 + x)) <
          sad (fun j => (j : ℤ)) (fun j => (j : ℤ) + 1) 3 ((3 - 1) / 2) x y d)) ∧
    (∀ x y, x < 3 → y < 3 →
      (x < (3 - 1) / 2 ∨ 3 - (3 - 1) / 2 ≤ x ∨
        y < (3 - 1) / 2 ∨ 3 - (3 - 1) / 2 ≤ y) →
      blockMatch (fun j => (j : ℤ)) (fun j => (j : ℤ) + 1) 3 3 3 2 (y * 3 + x) = 0)) :=
  ⟨⟨1, by norm_num⟩,
    blockMatch_interior_argmin_and_border_zero
      (fun j => (j : ℤ)) (fun j => (j : ℤ) + 1) 3 3 3 2 ⟨1, by norm_num⟩⟩

/-- C3: running the block matcher with identical left and right fields
returns an all-zero disparity field (0 at every interior pixel and, with
the border policy, 0 everywhere). -/
theorem blockMatch_identical_fields_all_zero (g : ℕ → ℤ)
    (w h bs md i : ℕ) : blockMatch g g w h bs md i = 0 :=
  blockMatch_self g w h bs md i

/-! ### Min/max scan specifications -/

lemma minFold_spec {α : Type} [LinearOrder α] (l : List α) (acc : α) :
    ∃ m, l.foldl minStep (some acc) = some m ∧ (m = acc ∨ m ∈ l) ∧
      m ≤ acc ∧ ∀ v ∈ l, m ≤ v := by
  induction l generalizing acc with
  | nil => exact ⟨acc, rfl, Or.inl rfl, le_refl _, by simp⟩
  | cons a l ih =>
    obtain ⟨m, hfold, hmem, hle, hall⟩ := ih (if a < acc then a else acc)
    have hacc : (if a < acc then a else acc) ≤ acc := by
      split <;> simp_all [le_of_lt]
    have ha : (if a < acc then a else acc) ≤ a := by
      split <;> simp_all [le_of_not_lt]
    refine ⟨m, hfold, ?_, le_trans hle hacc, ?_⟩
    · rcases hmem with rfl | hm
      · by_cases h : a < acc
        · rw [if_pos h]
          exact Or.inr (List.mem_cons_self a l)
        · rw [if_neg h]
          exact Or.inl rfl
      · exact Or.inr (List.mem_cons_of_mem a hm)
    · intro v hv
      rcases List.mem_cons.mp hv with rfl | hv'
      · exact le_trans hle ha
      · exact hall v hv'

lemma maxFold_spec {α : Type} [LinearOrder α] (l : List α) (acc : α) :
    ∃ m, l.foldl maxStep (some acc) = some m ∧ (m = acc ∨ m ∈ l) ∧
      acc ≤ m ∧ ∀ v ∈ l, v ≤ m := by
  induction l generalizing acc with
  | nil => exact ⟨acc, rfl, Or.inl rfl, le_refl _, by simp⟩
  | cons a l ih =>
    obtain ⟨m, hfold, hmem, hle, hall⟩ := ih (if a > acc then a else acc)
    have hacc : acc ≤ (if a > acc then a else acc) := by
      split <;> simp_all [le_of_lt]
    have ha : a ≤ (if a > acc then a else acc) := by
      split <;> simp_all [le_of_not_lt]
    refine ⟨m, hfold, ?_, le_trans hacc hle, ?_⟩
    · rcases hmem with rfl | hm
      · by_cases h : a > acc
        · rw [if_pos h]
          exact Or.inr (List.mem_cons_self a l)
        · rw [if_neg h]
          exact Or.inl rfl
      · exact Or.inr (List.mem_cons_of_mem a hm)
    · intro v hv
      rcases List.mem_cons.mp hv with rfl | hv'
      · exact le_trans ha hle
      · exact hall v hv'

lemma arrayMin_spec {α : Type} [LinearOrder α] {l : List α} {m : α}
    (h : arrayMin l = some m) : m ∈ l ∧ ∀ v ∈ l, m ≤ v := by
  cases l with
  | nil => simp [arrayMin] at h
  | cons a l' =>
    obtain ⟨m', hfold, hmem, hle, hall⟩ := minFold_spec l' a
    have heq : arrayMin (a :: l') = some m' := hfold
    rw [heq] at h
    obtain rfl : m' = m := Option.some.inj h
    refine ⟨?_, ?_⟩
    · rcases hmem with rfl | hm
      · exact List.mem_cons_self _ _
      · exact List.mem_cons_of_mem a hm
    · intro v hv
      rcases List.mem_cons.mp hv with rfl | hv'
      · exact hle
      · exact hall v hv'

lemma arrayMax_spec {α : Type} [LinearOrder α] {l : List α} {m : α}
    (h : arrayMax l = some m) : m ∈ l ∧ ∀ v ∈ l, v ≤ m := by
  cases l with
  | nil => simp [arrayMax] at h
  | cons a l' =>
    obtain ⟨m', hfold, hmem, hle, hall⟩ := maxFold_spec l' a
    have heq : arrayMax (a :: l') = some m' := hfold
    rw [heq] at h
    obtain rfl : m' = m := Option.some.inj h
    refine ⟨?_, ?_⟩
    · rcases hmem with rfl | hm
      · exact List.mem_cons_self _ _
      · exact List.mem_cons_of_mem a hm
    · intro v hv
      rcases List.mem_cons.mp hv with rfl | hv'
      · exact hle
      · exact hall v hv'

/-! ### Normalizer -/

lemma round_le_round_of_le {α : Type} [LinearOrderedField α] [FloorRing α]
    {u w : α} (h : u ≤ w) : round u ≤ round w := by
  rw [round_eq, round_eq]
  exact Int.floor_le_floor (by linarith)

/-- The rounded, pre-wrap value of one normalised entry stays in [0, 255]
whenever the entry lies between the minimum and maximum. -/
lemma normalize_entry_bounds {α : Type} [LinearOrderedField α] [FloorRing α]
    {mn mx v : α} (h1 : mn ≤ v) (h2 : v ≤ mx) :
    0 ≤ round ((v - mn) / (if mx - mn = 0 then (1 : α) else mx - mn) * 255) ∧
      round ((v - mn) / (if mx - mn = 0 then (1 : α) else mx - mn) * 255) ≤ 255 := by
  set r := if mx - mn = 0 then (1 : α) else mx - mn with hr
  have hrpos : 0 < r := by
    rw [hr]
    split
    · exact one_pos
    · rename_i hne
      have : mn ≤ mx := le_trans h1 h2
      rcases lt_or_eq_of_le this with hlt | heq
      · linarith
      · exact absurd (by rw [heq]; ring) hne
  have hsub : v - mn ≤ r := by
    rw [hr]
    split
    · rename_i h0
      have : v ≤ mn := by
        have : mx = mn := by linarith [sub_eq_zero.mp h0]
        linarith
      linarith
    · linarith
  have hq0 : (0 : α) ≤ (v - mn) / r * 255 :=
    mul_nonneg (div_nonneg (by linarith) (le_of_lt hrpos)) (by norm_num)
  have hq255 : (v - mn) / r * 255 ≤ 255 := by
    have hdiv : (v - mn) / r ≤ 1 := (div_le_one hrpos).mpr hsub
    nlinarith
  constructor
  · have := round_le_round_of_le hq0
    rwa [round_zero] at this
  · have := round_le_round_of_le hq255
    rwa [show round ((255 : α)) = 255 by norm_num] at this

/-- Entry i of the normaliser output, written with the Uint8 wrap
explicit. -/
lemma normalizeArray_getD {α : Type} [LinearOrderedField α] [FloorRing α]
    (data : List α) (mn mx : α) (hmn : arrayMin data = some mn)
    (hmx : arrayMax data = some mx) (i : ℕ) (hi : i < data.length) :
    (normalizeArray data).getD i 0 =
      (round ((data.getD i 0 - mn) /
        (if mx - mn = 0 then (1 : α) else mx - mn) * 255)).emod 256 := by
  unfold normalizeArray
  rw [hmn, hmx]
  have hlen : i < (data.map (fun v =>
      (round ((v - mn) / (if mx - mn = 0 then (1 : α) else mx - mn) * 255)).emod 256)).length := by
    rwa [List.length_map]
  rw [List.getD_eq_getElem _ _ hlen, List.getElem_map,
    List.getD_eq_getElem _ _ hi]

/-- Entry i of the normaliser output with the wrap removed: the rounded
value is already in [0, 255], so the Uint8 store does not change it. -/
lemma normalizeArray_getD_unwrapped {α : Type} [LinearOrderedField α] [FloorRing α]
    (data : List α) (mn mx : α) (hmn : arrayMin data = some mn)
    (hmx : arrayMax data = some mx) (i : ℕ) (hi : i < data.length) :
    (normalizeArray data).getD i 0 =
      round ((data.getD i 0 - mn) /
        (if mx - mn = 0 then (1 : α) else mx - mn) * 255) := by
  have hv : data.getD i 0 ∈ data := by
    rw [List.getD_eq_getElem _ _ hi]
    exact List.mem_iff_getElem.mpr ⟨i, hi, rfl⟩
  have h1 : mn ≤ data.getD i 0 := (arrayMin_spec hmn).2 _ hv
  have h2 : data.getD i 0 ≤ mx := (arrayMax_spec hmx).2 _ hv
  obtain ⟨hb0, hb255⟩ := normalize_entry_bounds h1 h2
  rw [normalizeArray_getD data mn mx hmn hmx i hi]
  exact Int.emod_eq_of_lt hb0 (by omega)

/-- Every value of the normaliser output lies in [0, 255]. -/
lemma normalizeArray_range {α : Type} [LinearOrderedField α] [FloorRing α]
    (data : List α) (mn mx : α) (hmn : arrayMin data = some mn)
    (hmx : arrayMax data = some mx) (i : ℕ) (hi : i < data.length) :
    0 ≤ (normalizeArray data).getD i 0 ∧ (normalizeArray data).getD i 0 ≤ 255 := by
  have hv : data.getD i 0 ∈ data := by
    rw [List.getD_eq_getElem _ _ hi]
    exact List.mem_iff_getElem.mpr ⟨i, hi, rfl⟩
  rw [normalizeArray_getD_unwrapped data mn mx hmn hmx i hi]
  exact normalize_entry_bounds ((arrayMin_spec hmn).2 _ hv) ((arrayMax_spec hmx).2 _ hv)

/-- C4: for a non-empty, non-constant field the normaliser sends every
pixel holding the global minimum to 0, every pixel holding the global
maximum to 255, and any pixel to round((v - min) / (max - min) * 255);
for a constant field every output value is 0. -/
theorem normalizer_minmax_rescale (data : List ℚ) (mn mx : ℚ)
    (hmn : arrayMin data = some mn) (hmx : arrayMax data = some mx) :
    (mn < mx → ∀ i, i < data.length →
      (normalizeArray data).getD i 0 =
        round ((data.getD i 0 - mn) / (mx - mn) * 255) ∧
      (data.getD i 0 = mn → (normalizeArray data).getD i 0 = 0) ∧
      (data.getD i 0 = mx → (normalizeArray data).getD i 0 = 255)) ∧
    (mn = mx → ∀ i, i < data.length → (normalizeArray data).getD i 0 = 0) := by
  constructor
  · intro hlt i hi
    have hne : mx - mn ≠ 0 := by
      intro h0
      have : mx = mn := by linarith [sub_eq_zero.mp h0]
      exact absurd this (ne_of_gt hlt)
    have hun := normalizeArray_getD_unwrapped data mn mx hmn hmx i hi
    rw [if_neg hne] at hun
    refine ⟨hun, ?_, ?_⟩
    · intro hvmin
      rw [hun, hvmin]
      norm_num
    · intro hvmax
      rw [hun, hvmax, div_self hne]
      norm_num
  · intro heq i hi
    have hv : data.getD i 0 ∈ data := by
      rw [List.getD_eq_getElem _ _ hi]
      exact List.mem_iff_getElem.mpr ⟨i, hi, rfl⟩
    have h1 : mn ≤ data.getD i 0 := (arrayMin_spec hmn).2 _ hv
    have h2 : data.getD i 0 ≤ mx := (arrayMax_spec hmx).2 _ hv
    have hconst : data.getD i 0 = mn := le_antisymm (heq ▸ h2) h1
    rw [normalizeArray_getD_unwrapped data mn mx hmn hmx i hi, hconst]
    norm_num

/-- Witness for C4 at the concrete field [0, 2]. -/
theorem normalizer_minmax_rescale_witness :
    arrayMin ([0, 2] : List ℚ) = some 0 ∧ arrayMax ([0, 2] : List ℚ) = some 2 ∧
    (((0 : ℚ) < 2 → ∀ i, i < ([0, 2] : List ℚ).length →
      (normalizeArray ([0, 2] : List ℚ)).getD i 0 =
        round ((([0, 2] : List ℚ).getD i 0 - 0) / (2 - 0) * 255) ∧
      (([0, 2] : List ℚ).getD i 0 = 0 → (normalizeArray ([0, 2] : List ℚ)).getD i 0 = 0) ∧
      (([0, 2] : List ℚ).getD i 0 = 2 → (normalizeArray ([0, 2] : List ℚ)).getD i 0 = 255)) ∧
    ((0 : ℚ) = 2 → ∀ i, i < ([0, 2] : List ℚ).length →
      (normalizeArray ([0, 2] : List ℚ)).getD i 0 = 0)) :=
  ⟨by decide, by decide, normalizer_minmax_rescale [0, 2] 0 2 (by decide) (by decide)⟩

/-! ### Grayscale converter range -/

lemma toGrayscale_unwrapped (img : ImageData)
    (hch : ∀ j, 0 ≤ img.r j ∧ img.r j ≤ 255 ∧ 0 ≤ img.g j ∧ img.g j ≤ 255 ∧
      0 ≤ img.b j ∧ img.b j ≤ 255) (i : ℕ) :
    toGrayscale img i =
      round ((0.299 : ℚ) * img.r i + (0.587 : ℚ) * img.g i + (0.114 : ℚ) * img.b i) ∧
      0 ≤ toGrayscale img i ∧ toGrayscale img i ≤ 255 := by
  obtain ⟨hr0, hr1, hg0, hg1, hb0, hb1⟩ := hch i
  have h0 : (0 : ℚ) ≤ (0.299 : ℚ) * img.r i + (0.587 : ℚ) * img.g i + (0.114 : ℚ) * img.b i := by
    have := mul_nonneg (by norm_num : (0:ℚ) ≤ 0.299) hr0
    have := mul_nonneg (by norm_num : (0:ℚ) ≤ 0.587) hg0
    have := mul_nonneg (by norm_num : (0:ℚ) ≤ 0.114) hb0
    linarith
  have h255 : (0.299 : ℚ) * img.r i + (0.587 : ℚ) * img.g i + (0.114 : ℚ) * img.b i ≤ 255 := by
    have := mul_le_mul_of_nonneg_left hr1 (by norm_num : (0:ℚ) ≤ 0.299)
    have := mul_le_mul_of_nonneg_left hg1 (by norm_num : (0:ℚ) ≤ 0.587)
    have := mul_le_mul_of_nonneg_left hb1 (by norm_num : (0:ℚ) ≤ 0.114)
    linarith
  have hround0 : 0 ≤ round ((0.299 : ℚ) * img.r i + (0.587 : ℚ) * img.g i + (0.114 : ℚ) * img.b i) := by
    have := round_le_round_of_le h0
    rwa [round_zero] at this
  have hround255 :
      round ((0.299 : ℚ) * img.r i + (0.587 : ℚ) * img.g i + (0.114 : ℚ) * img.b i) ≤ 255 := by
    have := round_le_round_of_le h255
    rwa [show round ((255 : ℚ)) = 255 by norm_num] at this
  have hwrap : toGrayscale img i =
      round ((0.299 : ℚ) * img.r i + (0.587 : ℚ) * img.g i + (0.114 : ℚ) * img.b i) := by
    unfold toGrayscale
    exact Int.emod_eq_of_lt hround0 (by omega)
  exact ⟨hwrap, hwrap ▸ hround0, hwrap ▸ hround255⟩

/-- C9: every Uint8 value produced by an output stage - the grayscale
converter's intensities and the normaliser's depth values - lies in
[0, 255] after rounding, and the Uint8 store does not wrap it (the stored
byte equals the rounded value). -/
theorem output_bytes_in_range_no_wrap (img : ImageData)
    (hch : ∀ j, 0 ≤ img.r j ∧ img.r j ≤ 255 ∧ 0 ≤ img.g j ∧ img.g j ≤ 255 ∧
      0 ≤ img.b j ∧ img.b j ≤ 255) (i : ℕ)
    (data : List ℚ) (mn mx : ℚ) (hmn : arrayMin data = some mn)
    (hmx : arrayMax data = some mx) (k : ℕ) (hk : k < data.length) :
    (toGrayscale img i =
      round ((0.299 : ℚ) * img.r i + (0.587 : ℚ) * img.g i + (0.114 : ℚ) * img.b i) ∧
      0 ≤ toGrayscale img i ∧ toGrayscale img i ≤ 255) ∧
    ((normalizeArray data).getD k 0 =
      round ((data.getD k 0 - mn) / (if mx - mn = 0 then (1 : ℚ) else mx - mn) * 255) ∧
      0 ≤ (normalizeArray data).getD k 0 ∧ (normalizeArray data).getD k 0 ≤ 255) :=
  ⟨toGrayscale_unwrapped img hch i,
    normalizeArray_getD_unwrapped data mn mx hmn hmx k hk,
    normalizeArray_range data mn mx hmn hmx k hk⟩

/-- Witness for C9 at gray16 pixel 0 and the concrete field [0, 2]. -/
theorem output_bytes_in_range_no_wrap_witness :
    (∀ j, 0 ≤ gray16.r j ∧ gray16.r j ≤ 255 ∧ 0 ≤ gray16.g j ∧ gray16.g j ≤ 255 ∧
      0 ≤ gray16.b j ∧ gray16.b j ≤ 255) ∧
    arrayMin ([0, 2] : List ℚ) = some 0 ∧ arrayMax ([0, 2] : List ℚ) = some 2 ∧
    (0 : ℕ) < ([0, 2] : List ℚ).length ∧
    ((toGrayscale gray16 0 =
      round ((0.299 : ℚ) * gray16.r 0 + (0.587 : ℚ) * gray16.g 0 + (0.114 : ℚ) * gray16.b 0) ∧
      0 ≤ toGrayscale gray16 0 ∧ toGrayscale gray16 0 ≤ 255) ∧
    ((normalizeArray ([0, 2] : List ℚ)).getD 0 0 =
      round ((([0, 2] : List ℚ).getD 0 0 - 0) /
        (if (2 : ℚ) - 0 = 0 then (1 : ℚ) else 2 - 0) * 255) ∧
      0 ≤ (normalizeArray ([0, 2] : List ℚ)).getD 0 0 ∧
      (normalizeArray ([0, 2] : List ℚ)).getD 0 0 ≤ 255)) :=
  ⟨fun j => by norm_num [gray16], by decide, by decide, by decide,
    output_bytes_in_range_no_wrap gray16 (fun j => by norm_num [gray16]) 0
      [0, 2] 0 2 (by decide) (by decide) 0 (by decide)⟩

/-! ### Median filter on constant fields -/

lemma sortedMid_const {α : Type} [LinearOrder α] [Zero α] (l : List α) (c : α)
    (hall : ∀ v ∈ l, v = c) (hpos : 0 < l.length) :
    (l.mergeSort (fun u v => decide (u ≤ v))).getD (l.length / 2) 0 = c := by
  have hidx : l.length / 2 < (l.mergeSort (fun u v => decide (u ≤ v))).length := by
    rw [List.length_mergeSort]
    exact Nat.div_lt_self hpos one_lt_two
  rw [List.getD_eq_getElem _ _ hidx]
  exact hall _ ((List.mergeSort_perm l _).mem_iff.mp (List.getElem_mem hidx))

lemma medianFilter_const {α : Type} [LinearOrder α] [Zero α] (c : α)
    (data : ℕ → α) (hconst : ∀ i, data i = c) (w h ks : ℕ) (hks : 1 ≤ ks)
    (i : ℕ) : medianFilter data w h ks i = c := by
  simp only [medianFilter]
  apply sortedMid_const
  · intro v hv
    simp only [List.mem_flatMap, List.mem_map] at hv
    obtain ⟨ka, -, kb, -, rfl⟩ := hv
    exact hconst _
  · rw [List.length_flatMap]
    have hrw : (List.map (List.length ∘ fun (ka : ℕ) =>
        (List.range ks).map (fun (kb : ℕ) =>
          data ((clamp 0 ((h : ℤ) - 1) (((i / w : ℕ) : ℤ) + (ka : ℤ) - ((ks / 2 : ℕ) : ℤ)) * w +
            clamp 0 ((w : ℤ) - 1) (((i % w : ℕ) : ℤ) + (kb : ℤ) - ((ks / 2 : ℕ) : ℤ))).toNat)))
        (List.range ks)).sum = ks * ks := by
      simp [Function.comp_def, List.sum_replicate, List.map_const']
    rw [hrw]
    exact Nat.mul_pos hks hks

/-- C7: the median filter maps a constant field to the same constant
field, for every odd kernel size at least 1. -/
theorem medianFilter_constant_identity (c : ℚ) (data : ℕ → ℚ)
    (hconst : ∀ i, data i = c) (w h ks : ℕ) (hodd : Odd ks) (hks : 1 ≤ ks)
    (i : ℕ) : medianFilter data w h ks i = c :=
  medianFilter_const c data hconst w h ks hks i

/-- Witness for C7: a 3-by-3 constant field of value 7, kernel size 3. -/
theorem medianFilter_constant_identity_witness :
    (∀ i : ℕ, (fun _ : ℕ => (7 : ℚ)) i = 7) ∧ Odd 3 ∧ 1 ≤ 3 ∧
      medianFilter (fun _ : ℕ => (7 : ℚ)) 3 3 3 0 = 7 :=
  ⟨fun _ => rfl, ⟨1, by norm_num⟩, by norm_num,
    medianFilter_constant_identity 7 (fun _ => 7) (fun _ => rfl) 3 3 3
      ⟨1, by norm_num⟩ (by norm_num) 0⟩

/-! ### Zero fields through the smoothing stages -/

lemma gaussianPassH_zero (data : ℕ → ℝ) (hz : ∀ j, data j = 0) (w : ℕ)
    (kernel : List ℝ) (half : ℕ) (i : ℕ) :
    gaussianPassH data w kernel half i = 0 := by
  simp only [gaussianPassH]
  refine Finset.sum_eq_zero fun k _ => ?_
  rw [hz]
  ring

lemma gaussianPassV_zero (data : ℕ → ℝ) (hz : ∀ j, data j = 0) (w h : ℕ)
    (kernel : List ℝ) (half : ℕ) (i : ℕ) :
    gaussianPassV data w h kernel half i = 0 := by
  simp only [gaussianPassV]
  refine Finset.sum_eq_zero fun k _ => ?_
  rw [hz]
  ring

lemma gaussianBlur_zero (data : ℕ → ℝ) (hz : ∀ j, data j = 0) (w h : ℕ)
    (sigma : ℝ) (i : ℕ) : gaussianBlur data w h sigma i = 0 := by
  simp only [gaussianBlur]
  exact gaussianPassV_zero _
    (fun j => gaussianPassH_zero data hz _ _ _ j) _ _ _ _ i

/-- A materialised constant field is a replicate list. -/
lemma fieldToList_const {α : Type} (f : ℕ → α) (c : α) (hf : ∀ i, f i = c)
    (n : ℕ) : fieldToList f n = List.replicate n c := by
  unfold fieldToList
  rw [List.eq_replicate_iff]
  refine ⟨by simp, ?_⟩
  intro b hb
  simp only [List.mem_map] at hb
  obtain ⟨v, -, rfl⟩ := hb
  exact hf v

/-- The normaliser maps any constant array to the all-zero array of the
same length. -/
lemma normalizeArray_const {α : Type} [LinearOrderedField α] [FloorRing α]
    (data : List α) (c : α) (hall : ∀ v ∈ data, v = c) :
    normalizeArray data = List.replicate data.length 0 := by
  cases data with
  | nil => rfl
  | cons a l =>
    obtain ⟨mnv, hmnf, hmnmem, -, -⟩ := minFold_spec l a
    obtain ⟨mxv, hmxf, hmxmem, -, -⟩ := maxFold_spec l a
    have hmn : arrayMin (a :: l) = some mnv := hmnf
    have hmx : arrayMax (a :: l) = some mxv := hmxf
    have hac : a = c := hall a (List.mem_cons_self a l)
    have hmnc : mnv = c := by
      rcases hmnmem with rfl | hm
      · exact hac
      · exact hall _ (List.mem_cons_of_mem a hm)
    have hmxc : mxv = c := by
      rcases hmxmem with rfl | hm
      · exact hac
      · exact hall _ (List.mem_cons_of_mem a hm)
    rw [hmnc] at hmn
    rw [hmxc] at hmx
    unfold normalizeArray
    rw [hmn, hmx]
    have hif : (if c - c = 0 then (1 : α) else c - c) = 1 := if_pos (sub_self c)
    simp only [hif]
    rw [List.eq_replicate_iff]
    refine ⟨by simp, ?_⟩
    intro b hb
    simp only [List.mem_map] at hb
    obtain ⟨v, hv, rfl⟩ := hb
    rw [hall v hv]
    norm_num

/-- With identical left and right images, the whole pipeline resolves to
the all-zero buffer of length width * height, whatever the options: the
disparity is zero everywhere, median and blur preserve the zero field, and
the degenerate normalisation maps it to zero. -/
lemma computeDepthMap_self (img : ImageData) (opts : DepthOptions) :
    computeDepthMap img img opts =
      .ok (List.replicate (img.width * img.height) (0 : ℝ)) := by
  unfold computeDepthMap
  have hdisp : ∀ i, ((blockMatch (toGrayscale img) (toGrayscale img)
      img.width img.height opts.blockSize opts.maxDisparity i : ℕ) : ℝ) = 0 := by
    intro i
    rw [blockMatch_self]
    norm_num
  have hproc : ∀ i,
      (if opts.smoothing then
        gaussianBlur (medianFilter (fun i => ((blockMatch (toGrayscale img) (toGrayscale img)
          img.width img.height opts.blockSize opts.maxDisparity i : ℕ) : ℝ))
          img.width img.height 3) img.width img.height 2
      else (fun i => ((blockMatch (toGrayscale img) (toGrayscale img)
          img.width img.height opts.blockSize opts.maxDisparity i : ℕ) : ℝ))) i = 0 := by
    intro i
    cases hs : opts.smoothing with
    | false =>
      simp only [Bool.false_eq_true, if_false]
      exact hdisp i
    | true =>
      simp only [if_true]
      exact gaussianBlur_zero _
        (fun j => medianFilter_const 0 _ hdisp img.width img.height 3 (by norm_num) j)
        img.width img.height 2 i
  have hlist : fieldToList
      (if opts.smoothing then
        gaussianBlur (medianFilter (fun i => ((blockMatch (toGrayscale img) (toGrayscale img)
          img.width img.height opts.blockSize opts.maxDisparity i : ℕ) : ℝ))
          img.width img.height 3) img.width img.height 2
      else (fun i => ((blockMatch (toGrayscale img) (toGrayscale img)
          img.width img.height opts.blockSize opts.maxDisparity i : ℕ) : ℝ)))
      (img.width * img.height) = List.replicate (img.width * img.height) (0 : ℝ) :=
    fieldToList_const _ 0 hproc _
  cases hn : opts.normalize with
  | false =>
    simp only [Bool.false_eq_true, if_false]
    rw [hlist]
  | true =>
    simp only [if_true]
    rw [hlist, normalizeArray_const _ (0 : ℝ) (fun v hv => List.eq_of_mem_replicate hv),
      List.length_replicate, List.map_replicate]
    norm_num

/-- C6: two identical 16-by-16 images of constant gray 100 through the
stereo pipeline with smoothing and normalisation enabled yield an all-zero
depth buffer. -/
theorem pipeline_identical_gray16_all_zero :
    computeDepthMap gray16 gray16 ⟨9, 64, true, true⟩ =
      Except.ok (List.replicate 256 (0 : ℝ)) := by
  have h := computeDepthMap_self gray16 ⟨9, 64, true, true⟩
  rw [show gray16.width * gray16.height = 256 from rfl] at h
  exact h

/-- Counterexample to C1: with the even blockSize 8 the pipeline does not
abort with InvalidConfig; it runs every stage and produces a full 256-entry
output buffer. -/
theorem pipeline_blockSize8_produces_full_output :
    computeDepthMap gray16 gray16 ⟨8, 64, true, true⟩ =
      Except.ok (List.replicate 256 (0 : ℝ)) := by
  have h := computeDepthMap_self gray16 ⟨8, 64, true, true⟩
  rw [show gray16.width * gray16.height = 256 from rfl] at h
  exact h

lemma blockMatch_eight_eq_nine (left right : ℕ → ℤ) (w h md : ℕ) :
    blockMatch left right w h 8 md = blockMatch left right w h 9 md := by
  funext i
  simp only [blockMatch]

/-- Amended C1: the pipeline performs no configuration validation.  An
even blockSize such as 8 raises nothing; every stage runs, the result is
always ok, and since only floor(blockSize / 2) is used, blockSize 8
behaves exactly as blockSize 9. -/
theorem pipeline_no_config_validation (left right : ImageData) (md : ℕ)
    (s n : Bool) :
    computeDepthMap left right ⟨8, md, s, n⟩ =
      computeDepthMap left right ⟨9, md, s, n⟩ ∧
    ∃ out, computeDepthMap left right ⟨8, md, s, n⟩ = Except.ok out := by
  constructor
  · simp only [computeDepthMap]
    rw [blockMatch_eight_eq_nine]
  · simp only [computeDepthMap]
    cases n with
    | true =>
      simp only [if_true]
      exact ⟨_, rfl⟩
    | false =>
      simp only [Bool.false_eq_true, if_false]
      exact ⟨_, rfl⟩

/-! ### Radial bias -/

lemma radialField_at (w h x y : ℕ) (hx : x < w) :
    radialField w h (y * w + x) = 1 - radialDist w h x y /
      Real.sqrt (((w : ℝ) / 2) ^ 2 + ((h : ℝ) / 2) ^ 2) := by
  simp only [radialField, flatIdx_mod w x y hx, flatIdx_div w x y hx]

lemma radialDist_le_corner (w h x y : ℕ) (hx : x < w) (hy : y < h) :
    radialDist w h x y ≤ Real.sqrt (((w : ℝ) / 2) ^ 2 + ((h : ℝ) / 2) ^ 2) := by
  apply Real.sqrt_le_sqrt
  have hxw : (x : ℝ) < w := by exact_mod_cast hx
  have hyh : (y : ℝ) < h := by exact_mod_cast hy
  have hx0 : (0 : ℝ) ≤ x := Nat.cast_nonneg x
  have hy0 : (0 : ℝ) ≤ y := Nat.cast_nonneg y
  have h1 : ((x : ℝ) - w / 2) ^ 2 ≤ ((w : ℝ) / 2) ^ 2 := by
    apply sq_le_sq' <;> linarith
  have h2 : ((y : ℝ) - h / 2) ^ 2 ≤ ((h : ℝ) / 2) ^ 2 := by
    apply sq_le_sq' <;> linarith
  linarith

/-- C8: for positive dimensions, every radial-bias value at a pixel lies
in [0, 1], and the field decreases with distance from the centre: a pixel
at no greater centre distance has no smaller value. -/
theorem radial_bias_range_and_monotone (w h : ℕ) (hw : 0 < w) (hh : 0 < h) :
    (∀ x y, x < w → y < h →
      0 ≤ radialField w h (y * w + x) ∧ radialField w h (y * w + x) ≤ 1) ∧
    (∀ x1 y1 x2 y2, x1 < w → y1 < h → x2 < w → y2 < h →
      radialDist w h x1 y1 ≤ radialDist w h x2 y2 →
      radialField w h (y2 * w + x2) ≤ radialField w h (y1 * w + x1)) := by
  have hmax : 0 < Real.sqrt (((w : ℝ) / 2) ^ 2 + ((h : ℝ) / 2) ^ 2) := by
    apply Real.sqrt_pos.mpr
    have hw' : (0 : ℝ) < w := by exact_mod_cast hw
    positivity
  constructor
  · intro x y hx hy
    rw [radialField_at w h x y hx]
    constructor
    · have hle : radialDist w h x y /
          Real.sqrt (((w : ℝ) / 2) ^ 2 + ((h : ℝ) / 2) ^ 2) ≤ 1 :=
        (div_le_one hmax).mpr (radialDist_le_corner w h x y hx hy)
      linarith
    · have h0 : 0 ≤ radialDist w h x y /
          Real.sqrt (((w : ℝ) / 2) ^ 2 + ((h : ℝ) / 2) ^ 2) :=
        div_nonneg (Real.sqrt_nonneg _) (le_of_lt hmax)
      linarith
  · intro x1 y1 x2 y2 hx1 hy1 hx2 hy2 hdist
    rw [radialField_at w h x1 y1 hx1, radialField_at w h x2 y2 hx2]
    have := (div_le_div_right hmax).mpr hdist
    linarith

/-- Witness for C8 at the concrete 2-by-2 image size. -/
theorem radial_bias_range_and_monotone_witness :
    (0 : ℕ) < 2 ∧
    ((∀ x y, x < 2 → y < 2 →
      0 ≤ radialField 2 2 (y * 2 + x) ∧ radialField 2 2 (y * 2 + x) ≤ 1) ∧
    (∀ x1 y1 x2 y2, x1 < 2 → y1 < 2 → x2 < 2 → y2 < 2 →
      radialDist 2 2 x1 y1 ≤ radialDist 2 2 x2 y2 →
      radialField 2 2 (y2 * 2 + x2) ≤ radialField 2 2 (y1 * 2 + x1))) :=
  ⟨by norm_num, radial_bias_range_and_monotone 2 2 (by norm_num) (by norm_num)⟩

/-! ### Sobel edge detector -/

lemma Icc_neg_one_one : Finset.Icc (-1 : ℤ) 1 = {-1, 0, 1} := by decide

lemma sum_Icc_neg_one_one (f : ℤ → ℤ) :
    (∑ k ∈ Finset.Icc (-1 : ℤ) 1, f k) = f (-1) + f 0 + f 1 := by
  rw [Icc_neg_one_one]
  rw [show ({-1, 0, 1} : Finset ℤ) = insert (-1) (insert 0 {1}) from rfl]
  rw [Finset.sum_insert (by decide), Finset.sum_insert (by decide),
    Finset.sum_singleton]
  ring

lemma sobelG_X_expand (gray : ℕ → ℤ) (w x y : ℕ) :
    sobelG gray w x y sobelX =
      -gray (((y : ℤ) + -1) * (w : ℤ) + ((x : ℤ) + -1)).toNat +
        gray (((y : ℤ) + -1) * (w : ℤ) + ((x : ℤ) + 1)).toNat +
      (-(gray ((y : ℤ) * (w : ℤ) + ((x : ℤ) + -1)).toNat * 2) +
        gray ((y : ℤ) * (w : ℤ) + ((x : ℤ) + 1)).toNat * 2) +
      (-gray (((y : ℤ) + 1) * (w : ℤ) + ((x : ℤ) + -1)).toNat +
        gray (((y : ℤ) + 1) * (w : ℤ) + ((x : ℤ) + 1)).toNat) := by
  unfold sobelG
  simp only [sum_Icc_neg_one_one]
  norm_num [sobelX, List.getD_cons_zero, List.getD_cons_succ,
    show ((2 : ℤ).toNat) = 2 from rfl, show ((3 : ℤ).toNat) = 3 from rfl,
    show ((4 : ℤ).toNat) = 4 from rfl, show ((5 : ℤ).toNat) = 5 from rfl,
    show ((6 : ℤ).toNat) = 6 from rfl, show ((7 : ℤ).toNat) = 7 from rfl,
    show ((8 : ℤ).toNat) = 8 from rfl]

lemma sobelG_Y_expand (gray : ℕ → ℤ) (w x y : ℕ) :
    sobelG gray w x y sobelY =
      -gray (((y : ℤ) + -1) * (w : ℤ) + ((x : ℤ) + -1)).toNat +
        -(gray (((y : ℤ) + -1) * (w : ℤ) + (x : ℤ)).toNat * 2) +
        -gray (((y : ℤ) + -1) * (w : ℤ) + ((x : ℤ) + 1)).toNat +
      (gray (((y : ℤ) + 1) * (w : ℤ) + ((x : ℤ) + -1)).toNat +
        gray (((y : ℤ) + 1) * (w : ℤ) + (x : ℤ)).toNat * 2 +
        gray (((y : ℤ) + 1) * (w : ℤ) + ((x : ℤ) + 1)).toNat) := by
  unfold sobelG
  simp only [sum_Icc_neg_one_one]
  norm_num [sobelY, List.getD_cons_zero, List.getD_cons_succ,
    show ((2 : ℤ).toNat) = 2 from rfl, show ((3 : ℤ).toNat) = 3 from rfl,
    show ((4 : ℤ).toNat) = 4 from rfl, show ((5 : ℤ).toNat) = 5 from rfl,
    show ((6 : ℤ).toNat) = 6 from rfl, show ((7 : ℤ).toNat) = 7 from rfl,
    show ((8 : ℤ).toNat) = 8 from rfl]

lemma sq_add_sq_le_1300500 {a b : ℤ} (ha0 : 0 ≤ a) (hb0 : 0 ≤ b)
    (ha : a ≤ 1020) (hb : b ≤ 1020) (hab : a + b ≤ 1530) :
    a ^ 2 + b ^ 2 ≤ 1300500 := by
  rcases le_total b 510 with h | h
  · nlinarith [mul_nonneg (sub_nonneg.mpr ha) ha0, mul_nonneg (sub_nonneg.mpr h) hb0]
  · nlinarith [mul_nonneg (by linarith : (0 : ℤ) ≤ 1530 - b - a)
        (by linarith : (0 : ℤ) ≤ 1530 - b + a),
      mul_nonneg (by linarith : (0 : ℤ) ≤ b - 510)
        (by linarith : (0 : ℤ) ≤ 1020 - b)]

lemma sobel_grad_sq_le (gray : ℕ → ℤ) (w x y : ℕ)
    (hbnd : ∀ j, 0 ≤ gray j ∧ gray j ≤ 255) :
    (sobelG gray w x y sobelX) ^ 2 + (sobelG gray w x y sobelY) ^ 2 ≤ 1300500 := by
  have hgx := sobelG_X_expand gray w x y
  have hgy := sobelG_Y_expand gray w x y
  obtain ⟨h1a, h1b⟩ := hbnd (((y : ℤ) + -1) * (w : ℤ) + ((x : ℤ) + -1)).toNat
  obtain ⟨h2a, h2b⟩ := hbnd (((y : ℤ) + -1) * (w : ℤ) + (x : ℤ)).toNat
  obtain ⟨h3a, h3b⟩ := hbnd (((y : ℤ) + -1) * (w : ℤ) + ((x : ℤ) + 1)).toNat
  obtain ⟨h4a, h4b⟩ := hbnd ((y : ℤ) * (w : ℤ) + ((x : ℤ) + -1)).toNat
  obtain ⟨h5a, h5b⟩ := hbnd ((y : ℤ) * (w : ℤ) + ((x : ℤ) + 1)).toNat
  obtain ⟨h6a, h6b⟩ := hbnd (((y : ℤ) + 1) * (w : ℤ) + ((x : ℤ) + -1)).toNat
  obtain ⟨h7a, h7b⟩ := hbnd (((y : ℤ) + 1) * (w : ℤ) + (x : ℤ)).toNat
  obtain ⟨h8a, h8b⟩ := hbnd (((y : ℤ) + 1) * (w : ℤ) + ((x : ℤ) + 1)).toNat
  have habs1 : |sobelG gray w x y sobelX| ≤ 1020 := by
    rw [abs_le]
    constructor <;> rw [hgx] <;> linarith
  have habs2 : |sobelG gray w x y sobelY| ≤ 1020 := by
    rw [abs_le]
    constructor <;> rw [hgy] <;> linarith
  have habs3 : |sobelG gray w x y sobelX| + |sobelG gray w x y sobelY| ≤ 1530 := by
    rcases abs_cases (sobelG gray w x y sobelX) with ⟨e1, -⟩ | ⟨e1, -⟩ <;>
      rcases abs_cases (sobelG gray w x y sobelY) with ⟨e2, -⟩ | ⟨e2, -⟩ <;>
      rw [e1, e2, hgx, hgy] <;> linarith
  have hfin := sq_add_sq_le_1300500 (abs_nonneg _) (abs_nonneg _) habs1 habs2 habs3
  rwa [sq_abs, sq_abs] at hfin

lemma sobelEdges_interior (gray : ℕ → ℤ) (w h i : ℕ)
    (hc : 1 ≤ i / w ∧ i / w < h - 1 ∧ 1 ≤ i % w ∧ i % w < w - 1) :
    sobelEdges gray w h i =
      Real.sqrt ((sobelG gray w (i % w) (i / w) sobelX : ℝ) ^ 2 +
        (sobelG gray w (i % w) (i / w) sobelY : ℝ) ^ 2) / 255 := by
  simp only [sobelEdges]
  rw [if_pos hc]

lemma sobelEdges_border (gray : ℕ → ℤ) (w h i : ℕ)
    (hc : ¬(1 ≤ i / w ∧ i / w < h - 1 ∧ 1 ≤ i % w ∧ i % w < w - 1)) :
    sobelEdges gray w h i = 0 := by
  simp only [sobelEdges]
  rw [if_neg hc]

/-- Amended C5: every Sobel edge value lies in [0, 2 sqrt 5] (about 4.47,
not about 1.4), and border row/column pixels are exactly 0. -/
theorem sobelEdges_range_and_border (gray : ℕ → ℤ) (w h : ℕ)
    (hbnd : ∀ j, 0 ≤ gray j ∧ gray j ≤ 255) (i : ℕ) :
    (0 ≤ sobelEdges gray w h i ∧ sobelEdges gray w h i ≤ 2 * Real.sqrt 5) ∧
    ((i % w = 0 ∨ i % w = w - 1 ∨ i / w = 0 ∨ i / w = h - 1) →
      sobelEdges gray w h i = 0) := by
  constructor
  · by_cases hc : 1 ≤ i / w ∧ i / w < h - 1 ∧ 1 ≤ i % w ∧ i % w < w - 1
    · rw [sobelEdges_interior gray w h i hc]
      constructor
      · positivity
      · have hZ := sobel_grad_sq_le gray w (i % w) (i / w) hbnd
        have hR : (sobelG gray w (i % w) (i / w) sobelX : ℝ) ^ 2 +
            (sobelG gray w (i % w) (i / w) sobelY : ℝ) ^ 2 ≤ 1300500 := by
          exact_mod_cast hZ
        have hs := Real.sqrt_le_sqrt hR
        have h13 : Real.sqrt 1300500 = 510 * Real.sqrt 5 := by
          rw [show (1300500 : ℝ) = 510 ^ 2 * 5 by norm_num,
            Real.sqrt_mul (by positivity) 5,
            Real.sqrt_sq (by norm_num : (0 : ℝ) ≤ 510)]
        rw [h13] at hs
        have hdiv := (div_le_div_right (by norm_num : (0 : ℝ) < 255)).mpr hs
        have hrw : (510 * Real.sqrt 5) / 255 = 2 * Real.sqrt 5 := by ring
        rwa [hrw] at hdiv
    · rw [sobelEdges_border gray w h i hc]
      refine ⟨le_refl 0, ?_⟩
      positivity
  · intro hdisj
    apply sobelEdges_border
    omega

/-- Witness for the amended C5 on the all-zero 3-by-3 field at pixel 0. -/
theorem sobelEdges_range_and_border_witness :
    (∀ j : ℕ, 0 ≤ (fun _ : ℕ => (0 : ℤ)) j ∧ (fun _ : ℕ => (0 : ℤ)) j ≤ 255) ∧
    ((0 ≤ sobelEdges (fun _ => 0) 3 3 0 ∧
      sobelEdges (fun _ => 0) 3 3 0 ≤ 2 * Real.sqrt 5) ∧
    ((0 % 3 = 0 ∨ 0 % 3 = 3 - 1 ∨ 0 / 3 = 0 ∨ 0 / 3 = 3 - 1) →
      sobelEdges (fun _ => 0) 3 3 0 = 0)) :=
  ⟨fun _ => ⟨le_refl 0, by norm_num⟩,
    sobelEdges_range_and_border (fun _ => 0) 3 3
      (fun _ => ⟨le_refl 0, by norm_num⟩) 0⟩

/-- Counterexample to C5 as stated: on a 3-by-3 field that is 0 except
for 255 at (2, 1), the edge value at the centre pixel is 2, which exceeds
the claimed approximate bound 1.4. -/
theorem sobelEdges_value_exceeds_claimed_bound :
    sobelEdges sobelSpike 3 3 4 = 2 ∧ ¬(sobelEdges sobelSpike 3 3 4 ≤ 1.4) := by
  have h2 : sobelEdges sobelSpike 3 3 4 = 2 := by
    rw [sobelEdges_interior sobelSpike 3 3 4 (by norm_num)]
    rw [show (4 : ℕ) % 3 = 1 from rfl, show (4 : ℕ) / 3 = 1 from rfl]
    rw [show sobelG sobelSpike 3 1 1 sobelX = 510 from by decide,
      show sobelG sobelSpike 3 1 1 sobelY = 0 from by decide]
    rw [show ((510 : ℤ) : ℝ) ^ 2 + ((0 : ℤ) : ℝ) ^ 2 = 510 ^ 2 from by push_cast; ring]
    rw [Real.sqrt_sq (by norm_num : (0 : ℝ) ≤ 510)]
    norm_num
  refine ⟨h2, ?_⟩
  rw [h2]
  norm_num

/-! ### Block matcher read bounds -/

lemma rowcol_idx_bounds (w h row col : ℤ) (hr0 : 0 ≤ row) (hr1 : row < h)
    (hc0 : 0 ≤ col) (hc1 : col < w) :
    0 ≤ row * w + col ∧ row * w + col < w * h := by
  have hw : 0 < w := lt_of_le_of_lt hc0 hc1
  constructor
  · have h1 : 0 ≤ row * w := mul_nonneg hr0 (le_of_lt hw)
    linarith
  · have h2 : (row + 1) * w ≤ h * w :=
      mul_le_mul_of_nonneg_right (by linarith) (le_of_lt hw)
    nlinarith

/-- C10: within the block matcher loop ranges (interior pixel (x, y),
disparity d up to min maxDisparity (x - half), window offsets wx, wy in
[-half, half]), both the left-image index (y+wy)*W + (x+wx) and the
right-image index (y+wy)*W + (x+wx-d) lie in [0, W*H), and in particular
the right-image column x+wx-d is never negative. -/
theorem blockMatch_reads_in_bounds (w h bs md : ℕ) (hodd : Odd bs)
    (x y d wx wy : ℤ)
    (hy1 : ((bs / 2 : ℕ) : ℤ) ≤ y) (hy2 : y < (h : ℤ) - ((bs / 2 : ℕ) : ℤ))
    (hx1 : ((bs / 2 : ℕ) : ℤ) ≤ x) (hx2 : x < (w : ℤ) - ((bs / 2 : ℕ) : ℤ))
    (hd0 : 0 ≤ d) (hd1 : d ≤ min (md : ℤ) (x - ((bs / 2 : ℕ) : ℤ)))
    (hwy1 : -((bs / 2 : ℕ) : ℤ) ≤ wy) (hwy2 : wy ≤ ((bs / 2 : ℕ) : ℤ))
    (hwx1 : -((bs / 2 : ℕ) : ℤ) ≤ wx) (hwx2 : wx ≤ ((bs / 2 : ℕ) : ℤ)) :
    (0 ≤ blockLeftIdx w x y wx wy ∧ blockLeftIdx w x y wx wy < (w : ℤ) * h) ∧
    (0 ≤ blockRightIdx w x y wx wy d ∧
      blockRightIdx w x y wx wy d < (w : ℤ) * h) ∧
    0 ≤ x + wx - d := by
  obtain ⟨hdm, hdx⟩ := le_min_iff.mp hd1
  have hrow0 : 0 ≤ y + wy := by linarith
  have hrow1 : y + wy < (h : ℤ) := by linarith
  have hcol0 : 0 ≤ x + wx := by linarith
  have hcol1 : x + wx < (w : ℤ) := by linarith
  have hrcol0 : 0 ≤ x + wx - d := by linarith
  have hrcol1 : x + wx - d < (w : ℤ) := by linarith
  refine ⟨?_, ?_, hrcol0⟩
  · exact rowcol_idx_bounds (w : ℤ) (h : ℤ) (y + wy) (x + wx)
      hrow0 hrow1 hcol0 hcol1
  · exact rowcol_idx_bounds (w : ℤ) (h : ℤ) (y + wy) (x + wx - d)
      hrow0 hrow1 hrcol0 hrcol1

/-- Witness for C10 at W = H = 3, blockSize 3, maxDisparity 1, the centre
pixel, d = 0 and the central window offset. -/
theorem blockMatch_reads_in_bounds_witness :
    Odd 3 ∧ (((3 / 2 : ℕ) : ℤ) ≤ 1 ∧ (1 : ℤ) < (3 : ℤ) - ((3 / 2 : ℕ) : ℤ) ∧
      (0 : ℤ) ≤ 0 ∧ (0 : ℤ) ≤ min ((1 : ℕ) : ℤ) (1 - ((3 / 2 : ℕ) : ℤ)) ∧
      -((3 / 2 : ℕ) : ℤ) ≤ 0 ∧ (0 : ℤ) ≤ ((3 / 2 : ℕ) : ℤ)) ∧
    ((0 ≤ blockLeftIdx 3 1 1 0 0 ∧ blockLeftIdx 3 1 1 0 0 < (3 : ℤ) * 3) ∧
    (0 ≤ blockRightIdx 3 1 1 0 0 0 ∧ blockRightIdx 3 1 1 0 0 0 < (3 : ℤ) * 3) ∧
    0 ≤ (1 : ℤ) + 0 - 0) :=
  ⟨⟨1, by norm_num⟩, by norm_num,
    blockMatch_reads_in_bounds 3 3 3 1 ⟨1, by norm_num⟩ 1 1 0 0 0
      (by norm_num) (by norm_num) (by norm_num) (by norm_num)
      (by norm_num) (by norm_num) (by norm_num) (by norm_num)
      (by norm_num) (by norm_num)⟩

end WiggleDepth
